import Mathlib

set_option maxHeartbeats 1000000
set_option maxRecDepth 4000

/-!
Verification development for the tinymce-docs-cleanup-action repository.

The embedding covers:
* `src/version.ts` — `Version`, `extractVersion`, `compareVersions`;
* `src/parallel.ts` — `parallelGenerator`, embedded as a small-step transition
  system over its slot table (`GenState`, `Step`);
* `src/main.ts` — `keyTaggedAsOld`, the per-page tagger of `prefixTaggedAsOld`,
  the page handling of `listVersions`, and the version loop of `tagOldVersions`.

Machine numbers are modelled as exact naturals/integers; the JavaScript
double rounding of `parseInt` above 2^53 is not modelled (values are kept
exact), which is noted where it matters.
-/

namespace DocsCleanup

/-- Model of an untyped JavaScript value, as received by `extractVersion`.
Non-string shapes (number, null, undefined, object, array) are collapsed to
bare constructors because `extractVersion` only tests `typeof s === 'string'`. -/
inductive JSValue where
  | str (s : String)
  | num (n : Int)
  | null
  | undef
  | obj
  | arr
deriving DecidableEq

/-- The `Version` interface of `src/version.ts`: the original identifier string
plus the two parsed ordinals. -/
structure Version where
  version : String
  run : Nat
  attempt : Nat
deriving DecidableEq

/-- One character of a `\d` regex class. -/
def isDigitChar (c : Char) : Bool := c.isDigit

/-- Decimal value of a digit group, as an exact natural number. -/
def decimalValue (ds : List Char) : Nat :=
  ds.foldl (fun a c => 10 * a + (c.toNat - 48)) 0

/-- The digit part of the anchored regex `run-(\d+)-(\d+)$`: given the text
after the `run-` literal, produce the two digit groups.  The regex `\d+` is
greedy and cannot cross the dash, so the greedy takeWhile split is exactly the
regex's successful match. -/
def matchDigits (rest : List Char) : Option (List Char × List Char) :=
  let d1 := rest.takeWhile isDigitChar
  let r1 := rest.dropWhile isDigitChar
  if r1.head? = some '-' ∧ d1 ≠ [] ∧ r1.tail.takeWhile isDigitChar ≠ [] ∧
      r1.tail.dropWhile isDigitChar = []
  then some (d1, r1.tail.takeWhile isDigitChar)
  else none

/-- The anchored regex `^run-(\d+)-(\d+)$` of `extractVersion`. -/
def matchRunPattern (l : List Char) : Option (List Char × List Char) :=
  if l.take 4 = ['r', 'u', 'n', '-'] then matchDigits (l.drop 4) else none

/-- Model of `parseInt(m, 10)` on a regex digit group: `none` models `NaN`.
A nonempty all-digit string always parses; the value is kept as an exact
natural (JavaScript would round values above 2^53 to the nearest double, a
difference this embedding does not track). -/
def parseIntDigits (ds : List Char) : Option Nat :=
  if ds = [] then none else some (decimalValue ds)

/-- `extractVersion` of `src/version.ts`: requires a string input, matches the
anchored pattern, parses both digit groups and checks them against `NaN`. -/
def extractVersion (j : JSValue) : Option Version :=
  match j with
  | JSValue.str s =>
    match matchRunPattern s.data with
    | some (d1, d2) =>
      match parseIntDigits d1, parseIntDigits d2 with
      | some r, some a => some ⟨s, r, a⟩
      | _, _ => none
    | none => none
  | _ => none

/-- `compareVersions` of `src/version.ts`: three-way comparator with `run` as
primary key and `attempt` as tie-break, computed by subtraction. -/
def compareVersions (a b : Version) : Int :=
  let d : Int := (a.run : Int) - (b.run : Int)
  if d = 0 then (a.attempt : Int) - (b.attempt : Int) else d

/-- Canonical decimal digit character. -/
def digitChar (n : Nat) : Char :=
  match n with
  | 0 => '0'
  | 1 => '1'
  | 2 => '2'
  | 3 => '3'
  | 4 => '4'
  | 5 => '5'
  | 6 => '6'
  | 7 => '7'
  | 8 => '8'
  | _ => '9'

/-- Fuel-driven decimal printer (helper for `natDecimal`). -/
def natDecimalAux : Nat → Nat → List Char
  | 0, _ => []
  | _ + 1, 0 => []
  | fuel + 1, n => natDecimalAux fuel (n / 10) ++ [digitChar (n % 10)]

/-- Canonical decimal representation of a natural number: no sign, no decimal
point, no leading zeros. -/
def natDecimal (n : Nat) : String :=
  if n = 0 then "0" else ⟨natDecimalAux (n + 1) n⟩

/-- The canonical textual form `run-<run>-<attempt>` the specification claims
every parsed identifier takes. -/
def canonicalForm (v : Version) : String :=
  "run-" ++ natDecimal v.run ++ "-" ++ natDecimal v.attempt

/-! ### Object store model for `keyTaggedAsOld` (src/main.ts)

The model tracks the attributes the copy-in-place request controls, plus the
object body, which a copy-in-place preserves.  The server-side refresh of the
last-modified timestamp is the operation's stated purpose and is not an
attribute carried by the request, so it is outside the modelled frame. -/

/-- Attributes of one stored object, as read by `HeadObjectCommand` and
written by `CopyObjectCommand`. -/
structure S3ObjectState where
  content : String
  contentType : Option String
  cacheControl : Option String
  metadata : List (String × String)
  tags : List (String × String)
deriving DecidableEq

/-- The cache-control default substituted when the object has none. -/
def defaultCacheControl : String := "max-age=0, stale-while-revalidate=86400"

/-- JavaScript object-spread override: all existing entries for the key are
superseded by the new binding (map semantics; entry order is irrelevant to
`List.lookup`-level statements). -/
def setMeta (m : List (String × String)) (k v : String) : List (String × String) :=
  (m.filter fun kv => kv.1 ≠ k) ++ [(k, v)]

/-- `keyTaggedAsOld` of `src/main.ts`: head the object, then copy in place with
`MetadataDirective: REPLACE` and `TaggingDirective: REPLACE`, preserving
content-type, preserving or defaulting cache-control, adding the `old-at`
timestamp to the existing metadata, and replacing the tag set with `old=true`. -/
def keyTaggedAsOld (now : String) (o : S3ObjectState) : S3ObjectState :=
  { content := o.content
    contentType := o.contentType
    cacheControl := some (o.cacheControl.getD defaultCacheControl)
    metadata := setMeta o.metadata "old-at" now
    tags := [("old", "true")] }

/-! ### Listing-response model (src/main.ts consumers of ListObjectsCommand) -/

/-- One `Contents` entry of a listing response; only the optional `Key` is
consumed by the pipeline. -/
structure S3Entry where
  entryKey : Option String
deriving DecidableEq

/-- One `CommonPrefixes` entry of a listing response, with its optional
prefix string. -/
structure CommonPrefixEntry where
  prefixStr : Option String
deriving DecidableEq

/-- The fields of a `ListObjectsOutput` the pipeline reads; every one of them
is optional in the SDK response shape. -/
structure ListObjectsOutput where
  contents : Option (List S3Entry)
  commonPrefixes : Option (List CommonPrefixEntry)
  isTruncated : Option Bool
  nextMarker : Option String
deriving DecidableEq

/-- Keys yielded by the `tagger` generator inside `prefixTaggedAsOld` for one
list of `Contents` entries: `if (o.Key)` is JavaScript truthiness, so both an
absent key and an empty-string key are skipped. -/
def taggerKeys (cs : List S3Entry) : List String :=
  cs.filterMap fun o =>
    match o.entryKey with
    | some k => if k = "" then none else some k
    | none => none

/-- The `tagger` generator of `prefixTaggedAsOld`: one mark-operation per
present key of the page's `Contents`; a page with no `Contents` yields
nothing (`if (list.Contents)`). -/
def tagger (page : ListObjectsOutput) : List String :=
  match page.contents with
  | some cs => taggerKeys cs
  | none => []

/-- The pagination marker update of `prefixTaggedAsOld`:
`data.NextMarker ?? data.Contents?.at(-1)?.Key`. -/
def nextMarkerOf (page : ListObjectsOutput) : Option String :=
  match page.nextMarker with
  | some m => some m
  | none =>
    match page.contents with
    | some cs => cs.getLast?.bind fun o => o.entryKey
    | none => none

/-- JavaScript `p.slice(start, -1)`: the characters from `start` up to but not
including the last one. -/
def jsSliceDropLast (p : String) (start : Nat) : String :=
  ⟨(p.data.drop start).dropLast⟩

/-- The `trimPrefix` helper of `listVersions`:
`c.Prefix?.slice(folder.length + 1, -1) ?? ''` — an entry with no prefix
string becomes the empty name. -/
def trimPrefixName (folder : String) (c : CommonPrefixEntry) : String :=
  match c.prefixStr with
  | some p => jsSliceDropLast p (folder.length + 1)
  | none => ""

/-- The versions one listing page contributes in `listVersions`:
`(data.CommonPrefixes ?? []).map(trimPrefix).map(extractVersion).filter(v => v != null)`. -/
def pageVersions (folder : String) (page : ListObjectsOutput) : List Version :=
  ((page.commonPrefixes.getD []).map (trimPrefixName folder)).filterMap
    fun s => extractVersion (JSValue.str s)

/-! ### The version loop of `tagOldVersions` (src/main.ts)

The store is modelled at prefix granularity: `marked` is the set of version
prefixes whose object set is tagged old.  `isPrefixTaggedAsOld` samples the
first object of the prefix and `prefixTaggedAsOld` tags every object of the
prefix, so for a listed (hence non-empty) prefix a completed marking makes a
later sample observe the tag. -/

/-- The per-version object-set path built by `tagOldVersions`:
`folder/<version-identifier>/`. -/
def prefixOfVersion (folder : String) (v : Version) : String :=
  folder ++ "/" ++ v.version ++ "/"

/-- The body of the version loop of `tagOldVersions`: walk the filtered
versions in listing order; skip a version whose object-set is already marked,
otherwise mark it (recording the marking in the store state).  Returns the
prefixes marked by this run, in order. -/
def tagLoop (folder : String) : List String → List Version → List String
  | _, [] => []
  | marked, v :: vs =>
    if prefixOfVersion folder v ∈ marked then tagLoop folder marked vs
    else prefixOfVersion folder v :: tagLoop folder (prefixOfVersion folder v :: marked) vs

/-- `tagOldVersions` of `src/main.ts`, from the pointer lookup onward: parse
the current version from the pointer metadata (fatal when absent or
unparseable), filter the listed versions to those strictly below current, and
run the marking loop against the store state `marked`. -/
def tagOldVersions (folder : String) (ptr : JSValue) (versions : List Version)
    (marked : List String) : Except String (List String) :=
  match extractVersion ptr with
  | none => Except.error ("No current version pointer found for " ++ folder)
  | some current =>
    Except.ok (tagLoop folder marked (versions.filter fun v => compareVersions v current < 0))

/-! ### Small-step embedding of `parallelGenerator` (src/parallel.ts)

An operation is a promise whose eventual outcome is fixed in advance
(`Outcome`): `ok v` fulfills with `v`, `err` rejects.  The `wrap` helper of
the source attaches only a fulfillment handler (`task.value.then(...)`), so a
wrapper around a rejecting operation never settles; `Slot.pending err` is
therefore a slot that can never win a race.  `Slot.doneWrap` is the wrapper of
a pull that hit source exhaustion (it settles immediately with `done`), and
`Slot.retired` is a `null` entry of `tasksAndNull`.  `Promise.race` resolves
with some settled wrapper; which one is environment timing, modelled as
nondeterministic choice in `Step`. -/

/-- The predetermined outcome of one asynchronous operation. -/
inductive Outcome (T : Type) where
  | ok (v : T)
  | err
deriving DecidableEq

/-- One entry of the scheduler's slot table. -/
inductive Slot (T : Type) where
  | pending (o : Outcome T)
  | doneWrap
  | retired
deriving DecidableEq

/-- Which loop of `parallelGenerator` is racing: the main refill loop over
`tasks`, or the tail-drain loop over `tasksAndNull`. -/
inductive Phase where
  | main
  | drain
deriving DecidableEq

/-- The scheduler state: the slot table, the not-yet-pulled source suffix, the
values yielded so far, and the current loop. -/
structure GenState (T : Type) where
  slots : List (Slot T)
  src : List (Outcome T)
  output : List T
  phase : Phase
deriving DecidableEq

/-- `wrap(i, source.next())`: a pull takes the next source operation, or an
exhaustion signal once the source is empty. -/
def pullSlot {T : Type} : List (Outcome T) → Slot T
  | [] => Slot.doneWrap
  | o :: _ => Slot.pending o

/-- The priming loop: `max` eager pulls fill the slot table in order. -/
def primeSlots {T : Type} : Nat → List (Outcome T) → List (Slot T)
  | 0, _ => []
  | m + 1, src => pullSlot src :: primeSlots m src.tail

/-- The state after the priming loop of `parallelGenerator`. -/
def initState {T : Type} (max : Nat) (src : List (Outcome T)) : GenState T :=
  ⟨primeSlots max src, src.drop max, [], Phase.main⟩

/-- One settled race of `parallelGenerator`.  In the main loop a fulfilled
operation is yielded and its slot refilled from the source, while a `done`
wrapper moves the table to the drain loop and retires that slot; in the drain
loop a settled wrapper is retired, yielding its value when it carried one.  A
wrapper around a rejecting operation never settles, so no rule consumes
`Slot.pending err`. -/
inductive Step {T : Type} : GenState T → GenState T → Prop where
  | mainOk (pre post : List (Slot T)) (src : List (Outcome T)) (out : List T) (v : T) :
      Step ⟨pre ++ Slot.pending (Outcome.ok v) :: post, src, out, Phase.main⟩
           ⟨pre ++ pullSlot src :: post, src.tail, out ++ [v], Phase.main⟩
  | mainDone (pre post : List (Slot T)) (src : List (Outcome T)) (out : List T) :
      Step ⟨pre ++ Slot.doneWrap :: post, src, out, Phase.main⟩
           ⟨pre ++ Slot.retired :: post, src, out, Phase.drain⟩
  | drainOk (pre post : List (Slot T)) (src : List (Outcome T)) (out : List T) (v : T) :
      Step ⟨pre ++ Slot.pending (Outcome.ok v) :: post, src, out, Phase.drain⟩
           ⟨pre ++ Slot.retired :: post, src, out ++ [v], Phase.drain⟩
  | drainDone (pre post : List (Slot T)) (src : List (Outcome T)) (out : List T) :
      Step ⟨pre ++ Slot.doneWrap :: post, src, out, Phase.drain⟩
           ⟨pre ++ Slot.retired :: post, src, out, Phase.drain⟩

/-- The states an execution of `parallelGenerator max source` can reach. -/
def Reachable {T : Type} (max : Nat) (src : List (Outcome T)) (s : GenState T) : Prop :=
  Relation.ReflTransGen Step (initState max src) s

/-- Whether a slot holds a pulled, not-yet-settled operation. -/
def isPendingSlot {T : Type} : Slot T → Bool
  | Slot.pending _ => true
  | _ => false

/-- Number of pulled-but-unsettled operations held by the slot table. -/
def countPending {T : Type} (l : List (Slot T)) : Nat :=
  (l.filter isPendingSlot).length

/-- Values of in-flight operations that will eventually fulfil. -/
def slotOkValues {T : Type} (l : List (Slot T)) : List T :=
  l.filterMap fun sl =>
    match sl with
    | Slot.pending (Outcome.ok v) => some v
    | _ => none

/-- Values of the fulfilling operations of a source list. -/
def okValues {T : Type} (l : List (Outcome T)) : List T :=
  l.filterMap fun o =>
    match o with
    | Outcome.ok v => some v
    | Outcome.err => none

/-- Termination weight of one slot. -/
def slotWeight {T : Type} : Slot T → Nat
  | Slot.pending _ => 2
  | Slot.doneWrap => 1
  | Slot.retired => 0

/-- Termination measure: strictly decreases along every `Step`. -/
def measureG {T : Type} (s : GenState T) : Nat :=
  2 * s.src.length + (s.slots.map slotWeight).sum

/-- Whether a slot is a retired (`null`) entry. -/
def isRetiredSlot {T : Type} : Slot T → Bool
  | Slot.retired => true
  | _ => false

/-- Whether every slot is retired, i.e. the generator has returned. -/
def allRetired {T : Type} (s : GenState T) : Bool :=
  s.slots.all isRetiredSlot

/-- Number of slots whose wrapper can still settle (a pending fulfilling
operation, or a `done` wrapper).  When zero, `Promise.race` over the table can
never resolve. -/
def settleableCount {T : Type} (s : GenState T) : Nat :=
  (s.slots.filter fun sl =>
    match sl with
    | Slot.pending (Outcome.ok _) => true
    | Slot.doneWrap => true
    | _ => false).length

/-- The inductive invariant of the slot table: fixed table width, slot
accounting of every pulled operation, conservation of fulfilling values,
all-pending table while the source is unexhausted, empty source in the drain
loop, and no retired slot in the main loop. -/
def GenInv {T : Type} (max : Nat) (src0 : List (Outcome T)) (s : GenState T) : Prop :=
  s.slots.length = max ∧
  src0.length = s.src.length + s.output.length + countPending s.slots ∧
  ((s.output : Multiset T) + (slotOkValues s.slots : Multiset T) +
    (okValues s.src : Multiset T) = (okValues src0 : Multiset T)) ∧
  (s.src = [] ∨ ∀ sl ∈ s.slots, isPendingSlot sl = true) ∧
  (s.phase = Phase.drain → s.src = []) ∧
  (s.phase = Phase.main → Slot.retired ∉ s.slots)

/-- No rejecting operation anywhere in the state (holds when the source has
none). -/
def NoErr {T : Type} (s : GenState T) : Prop :=
  Outcome.err ∉ s.src ∧ Slot.pending Outcome.err ∉ s.slots

/-! ## Version model lemmas -/

theorem takeWhile_all {p : Char → Bool} :
    ∀ l : List Char, (∀ c ∈ l, p c = true) →
      l.takeWhile p = l ∧ l.dropWhile p = [] := by
  intro l h
  induction l with
  | nil => simp
  | cons a t ih =>
    have ha : p a = true := h a (List.mem_cons_self a t)
    have ht := ih fun c hc => h c (List.mem_cons_of_mem a hc)
    simp [List.takeWhile_cons, List.dropWhile_cons, ha, ht.1, ht.2]

theorem takeWhile_stop {p : Char → Bool} (b : Char) (l2 : List Char) (hb : p b = false) :
    ∀ l1 : List Char, (∀ c ∈ l1, p c = true) →
      (l1 ++ b :: l2).takeWhile p = l1 ∧ (l1 ++ b :: l2).dropWhile p = b :: l2 := by
  intro l1 h
  induction l1 with
  | nil => simp [List.takeWhile_cons, List.dropWhile_cons, hb]
  | cons a t ih =>
    have ha : p a = true := h a (List.mem_cons_self a t)
    have ht := ih fun c hc => h c (List.mem_cons_of_mem a hc)
    simp [List.takeWhile_cons, List.dropWhile_cons, ha, ht.1, ht.2]

theorem matchDigits_eq_some {rest d1 d2 : List Char} :
    matchDigits rest = some (d1, d2) ↔
      d1 ≠ [] ∧ d2 ≠ [] ∧ (∀ c ∈ d1, isDigitChar c = true) ∧
        (∀ c ∈ d2, isDigitChar c = true) ∧ rest = d1 ++ '-' :: d2 := by
  constructor
  · intro h
    simp only [matchDigits] at h
    split_ifs at h with hc
    · obtain ⟨hh, hne, hne2, hdrop⟩ := hc
      injection h with h'
      have hd1 : rest.takeWhile isDigitChar = d1 := congrArg Prod.fst h'
      have hd2 : (rest.dropWhile isDigitChar).tail.takeWhile isDigitChar = d2 :=
        congrArg Prod.snd h'
      cases hr : rest.dropWhile isDigitChar with
      | nil =>
        rw [hr] at hh
        simp at hh
      | cons a t =>
        rw [hr] at hh hdrop hne2 hd2
        simp only [List.head?_cons, Option.some.injEq] at hh
        subst hh
        simp only [List.tail_cons] at hdrop hne2 hd2
        have hrest : rest = d1 ++ '-' :: t := by
          conv_lhs => rw [(List.takeWhile_append_dropWhile isDigitChar rest).symm]
          rw [hd1, hr]
        have ht : t = d2 := by
          conv_lhs => rw [(List.takeWhile_append_dropWhile isDigitChar t).symm]
          rw [hd2, hdrop]
          simp
        subst ht
        refine ⟨?_, ?_, ?_, ?_, hrest⟩
        · rw [← hd1]; exact hne
        · rw [← hd2]; exact hne2
        · intro c hc'
          rw [← hd1] at hc'
          exact List.mem_takeWhile_imp hc'
        · intro c hc'
          rw [← hd2] at hc'
          exact List.mem_takeWhile_imp hc'
  · rintro ⟨h1, h2, hd1, hd2, rfl⟩
    have hminus : isDigitChar '-' = false := by decide
    obtain ⟨ht, hd⟩ := takeWhile_stop '-' d2 hminus d1 hd1
    obtain ⟨ht2, hd2'⟩ := takeWhile_all d2 hd2
    simp only [matchDigits]
    rw [if_pos]
    · rw [ht, hd]
      simp [ht2]
    · refine ⟨by simp [hd], by rw [ht]; exact h1, ?_, by simp [hd, hd2']⟩
      rw [hd]
      simpa [ht2] using h2

theorem matchRunPattern_eq_some {l d1 d2 : List Char} :
    matchRunPattern l = some (d1, d2) ↔
      d1 ≠ [] ∧ d2 ≠ [] ∧ (∀ c ∈ d1, isDigitChar c = true) ∧
        (∀ c ∈ d2, isDigitChar c = true) ∧
        l = 'r' :: 'u' :: 'n' :: '-' :: (d1 ++ '-' :: d2) := by
  constructor
  · intro h
    unfold matchRunPattern at h
    split_ifs at h with h4
    obtain ⟨h1, h2, hd1, hd2, hrest⟩ := matchDigits_eq_some.mp h
    refine ⟨h1, h2, hd1, hd2, ?_⟩
    conv_lhs => rw [(List.take_append_drop 4 l).symm]
    rw [h4, hrest]
    rfl
  · rintro ⟨h1, h2, hd1, hd2, rfl⟩
    unfold matchRunPattern
    have h4 : List.take 4 ('r' :: 'u' :: 'n' :: '-' :: (d1 ++ '-' :: d2)) =
        ['r', 'u', 'n', '-'] := rfl
    rw [if_pos h4]
    have hd : List.drop 4 ('r' :: 'u' :: 'n' :: '-' :: (d1 ++ '-' :: d2)) =
        d1 ++ '-' :: d2 := rfl
    rw [hd]
    exact matchDigits_eq_some.mpr ⟨h1, h2, hd1, hd2, rfl⟩

/-- C6: `extractVersion` succeeds exactly on string inputs fully matching the
anchored pattern `run-<digits>-<digits>` (both digit groups nonempty); every
non-string input and every non-matching string fails. -/
theorem extractVersion_exact_domain (j : JSValue) :
    (extractVersion j).isSome = true ↔
      ∃ s d1 d2, j = JSValue.str s ∧ d1 ≠ [] ∧ d2 ≠ [] ∧
        (∀ c ∈ d1, isDigitChar c = true) ∧ (∀ c ∈ d2, isDigitChar c = true) ∧
        s.data = 'r' :: 'u' :: 'n' :: '-' :: (d1 ++ '-' :: d2) := by
  constructor
  · intro h
    cases j with
    | str s =>
      rcases hm : matchRunPattern s.data with _ | ⟨d1, d2⟩
      · simp [extractVersion, hm] at h
      · obtain ⟨h1, h2, hd1, hd2, hl⟩ := matchRunPattern_eq_some.mp hm
        exact ⟨s, d1, d2, rfl, h1, h2, hd1, hd2, hl⟩
    | num n => simp [extractVersion] at h
    | null => simp [extractVersion] at h
    | undef => simp [extractVersion] at h
    | obj => simp [extractVersion] at h
    | arr => simp [extractVersion] at h
  · rintro ⟨s, d1, d2, rfl, h1, h2, hd1, hd2, hl⟩
    have hm : matchRunPattern s.data = some (d1, d2) :=
      matchRunPattern_eq_some.mpr ⟨h1, h2, hd1, hd2, hl⟩
    simp [extractVersion, hm, parseIntDigits, h1, h2]

theorem extractVersion_exact_domain_witness :
    (extractVersion (JSValue.str "run-12-3")).isSome = true :=
  (extractVersion_exact_domain (JSValue.str "run-12-3")).mpr
    ⟨"run-12-3", ['1', '2'], ['3'], rfl, by decide, by decide, by decide, by decide, by decide⟩

/-- C7: `compareVersions` is a total three-way order with `run` as primary key
and `attempt` as tie-break — reflexive-equal, antisymmetric, transitive (both
for strict comparison and for comparison-equality), and blind to the
identifier strings.  The sign of the comparator is characterized exactly by
the lexicographic `(run, attempt)` order: it is negative precisely when the
first version's `run` is smaller, or the runs are equal and its `attempt` is
smaller — so `run` dominates `attempt`. -/
theorem compareVersions_total_order (a b c : Version) :
    compareVersions a a = 0 ∧
    (compareVersions a b < 0 ↔ 0 < compareVersions b a) ∧
    (compareVersions a b = 0 ↔ compareVersions b a = 0) ∧
    (compareVersions a b < 0 → compareVersions b c < 0 → compareVersions a c < 0) ∧
    (compareVersions a b = 0 → compareVersions b c = 0 → compareVersions a c = 0) ∧
    (compareVersions a b = 0 ↔ a.run = b.run ∧ a.attempt = b.attempt) ∧
    (compareVersions a b < 0 ↔
      (a.run < b.run ∨ (a.run = b.run ∧ a.attempt < b.attempt))) ∧
    (a.run = b.run → a.attempt = b.attempt → compareVersions a b = 0) := by
  refine ⟨?_, ?_, ?_, ?_, ?_, ?_, ?_, ?_⟩
  · simp [compareVersions]
  · simp only [compareVersions]
    split_ifs <;> omega
  · simp only [compareVersions]
    split_ifs <;> omega
  · intro h1 h2
    simp only [compareVersions] at h1 h2 ⊢
    split_ifs at h1 h2 ⊢ <;> omega
  · intro h1 h2
    simp only [compareVersions] at h1 h2 ⊢
    split_ifs at h1 h2 ⊢ <;> omega
  · simp only [compareVersions]
    split_ifs <;> omega
  · simp only [compareVersions]
    split_ifs <;> omega
  · intro h1 h2
    simp only [compareVersions]
    split_ifs <;> omega

theorem compareVersions_total_order_witness :
    compareVersions ⟨"run-99-999", 99, 999⟩ ⟨"run-100-1", 100, 1⟩ < 0 ∧
    0 < compareVersions ⟨"run-100-1", 100, 1⟩ ⟨"run-99-999", 99, 999⟩ ∧
    compareVersions ⟨"run-122-1", 122, 1⟩ ⟨"run-123-2", 123, 2⟩ < 0 :=
  ⟨by decide,
    (compareVersions_total_order ⟨"run-99-999", 99, 999⟩ ⟨"run-100-1", 100, 1⟩
      ⟨"run-100-1", 100, 1⟩).2.1.mp (by decide),
    (compareVersions_total_order ⟨"run-122-1", 122, 1⟩ ⟨"run-123-1", 123, 1⟩
      ⟨"run-123-2", 123, 2⟩).2.2.2.1 (by decide) (by decide)⟩

/-- C8 counterexample: a digit group strictly above 2^53 (the exact-integer
range of a JavaScript double) is still accepted by `extractVersion` — the
`Number.isNaN` guard never fires on a matched digit group, so no
overflow-range input is rejected. -/
theorem extractVersion_accepts_beyond_exact_range :
    extractVersion (JSValue.str "run-9007199254740993-1") =
      some ⟨"run-9007199254740993-1", 9007199254740993, 1⟩ ∧
    2 ^ 53 < 9007199254740993 :=
  ⟨by decide, by decide⟩

/-- C8 amended: on success both components equal the exact decimal value of
their (nonempty) digit groups; the guard never rejects a matched string, so
inputs whose digit groups exceed 2^53 are accepted as well. -/
theorem extractVersion_components (j : JSValue) (v : Version)
    (h : extractVersion j = some v) :
    ∃ d1 d2, d1 ≠ [] ∧ d2 ≠ [] ∧
      (∀ c ∈ d1, isDigitChar c = true) ∧ (∀ c ∈ d2, isDigitChar c = true) ∧
      v.version.data = 'r' :: 'u' :: 'n' :: '-' :: (d1 ++ '-' :: d2) ∧
      v.run = decimalValue d1 ∧ v.attempt = decimalValue d2 := by
  cases j with
  | str s =>
    rcases hm : matchRunPattern s.data with _ | ⟨d1, d2⟩
    · simp [extractVersion, hm] at h
    · obtain ⟨h1, h2, hd1, hd2, hl⟩ := matchRunPattern_eq_some.mp hm
      have hv : extractVersion (JSValue.str s) = some ⟨s, decimalValue d1, decimalValue d2⟩ := by
        simp [extractVersion, hm, parseIntDigits, h1, h2]
      rw [hv] at h
      injection h with h'
      subst h'
      exact ⟨d1, d2, h1, h2, hd1, hd2, hl, rfl, rfl⟩
  | num n => simp [extractVersion] at h
  | null => simp [extractVersion] at h
  | undef => simp [extractVersion] at h
  | obj => simp [extractVersion] at h
  | arr => simp [extractVersion] at h

theorem extractVersion_components_witness :
    ∃ d1 d2, d1 ≠ [] ∧ d2 ≠ [] ∧
      (∀ c ∈ d1, isDigitChar c = true) ∧ (∀ c ∈ d2, isDigitChar c = true) ∧
      (⟨"run-12-3", 12, 3⟩ : Version).version.data = 'r' :: 'u' :: 'n' :: '-' :: (d1 ++ '-' :: d2) ∧
      (⟨"run-12-3", 12, 3⟩ : Version).run = decimalValue d1 ∧
      (⟨"run-12-3", 12, 3⟩ : Version).attempt = decimalValue d2 :=
  extractVersion_components (JSValue.str "run-12-3") ⟨"run-12-3", 12, 3⟩ (by decide)

/-- C9 counterexample: `extractVersion` accepts digit groups with leading
zeros, producing a Version whose identifier differs from the canonical
decimal form `run-<run>-<attempt>` of its ordinals. -/
theorem extractVersion_leading_zeros :
    extractVersion (JSValue.str "run-007-1") = some ⟨"run-007-1", 7, 1⟩ ∧
    canonicalForm ⟨"run-007-1", 7, 1⟩ = "run-7-1" ∧
    ("run-007-1" : String) ≠ "run-7-1" :=
  ⟨by decide, by decide, by decide⟩

/-- C9 amended: every Version produced by `extractVersion` carries the parsed
string as its identifier, so the identifier matches the anchored pattern and
re-parsing it yields the same Version (round-trip); the identifier need not be
the canonical decimal form, because digit groups may carry leading zeros. -/
theorem extractVersion_round_trip (j : JSValue) (v : Version)
    (h : extractVersion j = some v) :
    j = JSValue.str v.version ∧
    extractVersion (JSValue.str v.version) = some v := by
  cases j with
  | str s =>
    rcases hm : matchRunPattern s.data with _ | ⟨d1, d2⟩
    · simp [extractVersion, hm] at h
    · obtain ⟨h1, h2, hd1, hd2, hl⟩ := matchRunPattern_eq_some.mp hm
      have hv : extractVersion (JSValue.str s) = some ⟨s, decimalValue d1, decimalValue d2⟩ := by
        simp [extractVersion, hm, parseIntDigits, h1, h2]
      rw [hv] at h
      injection h with h'
      subst h'
      exact ⟨rfl, hv⟩
  | num n => simp [extractVersion] at h
  | null => simp [extractVersion] at h
  | undef => simp [extractVersion] at h
  | obj => simp [extractVersion] at h
  | arr => simp [extractVersion] at h

theorem extractVersion_round_trip_witness :
    JSValue.str "run-12-3" = JSValue.str (⟨"run-12-3", 12, 3⟩ : Version).version ∧
    extractVersion (JSValue.str (⟨"run-12-3", 12, 3⟩ : Version).version) =
      some ⟨"run-12-3", 12, 3⟩ :=
  extractVersion_round_trip (JSValue.str "run-12-3") ⟨"run-12-3", 12, 3⟩ (by decide)

/-! ## Metadata map lemmas for `keyTaggedAsOld` -/

theorem lookup_filter_ne (k k0 : String) (h : k ≠ k0) :
    ∀ m : List (String × String),
      List.lookup k (m.filter fun kv => kv.1 ≠ k0) = List.lookup k m := by
  intro m
  induction m with
  | nil => rfl
  | cons kv t ih =>
    obtain ⟨k1, v1⟩ := kv
    rw [List.filter_cons]
    by_cases hk : k1 = k0
    · rw [if_neg (by simp [hk])]
      have hne : (k == k1) = false :=
        beq_eq_false_iff_ne.mpr fun he => h (he.trans hk)
      simp only [List.lookup_cons, hne]
      simpa using ih
    · rw [if_pos (by simp [hk])]
      by_cases hkk : k = k1
      · have hbeq : (k == k1) = true := beq_iff_eq.mpr hkk
        simp [List.lookup_cons, hbeq]
      · have hbeq : (k == k1) = false := beq_eq_false_iff_ne.mpr hkk
        simp only [List.lookup_cons, hbeq]
        simpa using ih

theorem lookup_append_single (k k0 v0 : String) (h : k ≠ k0) :
    ∀ l : List (String × String),
      List.lookup k (l ++ [(k0, v0)]) = List.lookup k l := by
  intro l
  induction l with
  | nil =>
    have hbeq : (k == k0) = false := beq_eq_false_iff_ne.mpr h
    simp [List.lookup_cons, hbeq]
  | cons kv t ih =>
    obtain ⟨k1, v1⟩ := kv
    rw [List.cons_append, List.lookup_cons, List.lookup_cons]
    cases k == k1
    · exact ih
    · rfl

theorem lookup_append_last (k v : String) :
    ∀ l : List (String × String), (∀ kv ∈ l, kv.1 ≠ k) →
      List.lookup k (l ++ [(k, v)]) = some v := by
  intro l
  induction l with
  | nil =>
    intro _
    have hbeq : (k == k) = true := beq_iff_eq.mpr rfl
    simp [List.lookup_cons, hbeq]
  | cons kv t ih =>
    intro h
    obtain ⟨k1, v1⟩ := kv
    have h1 : k1 ≠ k := h (k1, v1) (List.mem_cons_self ..)
    have hbeq : (k == k1) = false := beq_eq_false_iff_ne.mpr fun he => h1 he.symm
    simp only [List.cons_append, List.lookup_cons, hbeq]
    exact ih fun kv hkv => h kv (List.mem_cons_of_mem _ hkv)

theorem lookup_setMeta_self (m : List (String × String)) (k v : String) :
    List.lookup k (setMeta m k v) = some v := by
  refine lookup_append_last k v _ ?_
  intro kv hkv
  have := (List.mem_filter.mp hkv).2
  simpa using this

theorem lookup_setMeta_ne (m : List (String × String)) (k v k' : String) (h : k' ≠ k) :
    List.lookup k' (setMeta m k v) = List.lookup k' m := by
  unfold setMeta
  rw [lookup_append_single k' k v h]
  exact lookup_filter_ne k' k h m

/-- C5: `keyTaggedAsOld` preserves the object's content and content-type,
preserves the cache-control or substitutes the default when absent, writes a
metadata map equal to the existing one plus the single timestamp field
`old-at`, and replaces the tag set with exactly `old=true`; re-marking an
already-marked object changes only the timestamp field.  (The server-side
refresh of the last-modified timestamp is the operation's stated purpose and
is outside the modelled attribute frame.) -/
theorem keyTaggedAsOld_spec (now now2 : String) (o : S3ObjectState) :
    (keyTaggedAsOld now o).content = o.content ∧
    (keyTaggedAsOld now o).contentType = o.contentType ∧
    (∀ cc, o.cacheControl = some cc → (keyTaggedAsOld now o).cacheControl = some cc) ∧
    (o.cacheControl = none →
      (keyTaggedAsOld now o).cacheControl = some defaultCacheControl) ∧
    List.lookup "old-at" (keyTaggedAsOld now o).metadata = some now ∧
    (∀ k, k ≠ "old-at" →
      List.lookup k (keyTaggedAsOld now o).metadata = List.lookup k o.metadata) ∧
    (keyTaggedAsOld now o).tags = [("old", "true")] ∧
    (keyTaggedAsOld now2 (keyTaggedAsOld now o)).tags = (keyTaggedAsOld now o).tags ∧
    (keyTaggedAsOld now2 (keyTaggedAsOld now o)).content = (keyTaggedAsOld now o).content ∧
    (keyTaggedAsOld now2 (keyTaggedAsOld now o)).contentType =
      (keyTaggedAsOld now o).contentType ∧
    (keyTaggedAsOld now2 (keyTaggedAsOld now o)).cacheControl =
      (keyTaggedAsOld now o).cacheControl ∧
    List.lookup "old-at" (keyTaggedAsOld now2 (keyTaggedAsOld now o)).metadata = some now2 ∧
    (∀ k, k ≠ "old-at" →
      List.lookup k (keyTaggedAsOld now2 (keyTaggedAsOld now o)).metadata =
        List.lookup k (keyTaggedAsOld now o).metadata) := by
  refine ⟨rfl, rfl, ?_, ?_, ?_, ?_, rfl, rfl, rfl, rfl, ?_, ?_, ?_⟩
  · intro cc hcc
    simp [keyTaggedAsOld, hcc]
  · intro hcc
    simp [keyTaggedAsOld, hcc]
  · exact lookup_setMeta_self o.metadata "old-at" now
  · intro k hk
    exact lookup_setMeta_ne o.metadata "old-at" now k hk
  · simp [keyTaggedAsOld]
  · exact lookup_setMeta_self (keyTaggedAsOld now o).metadata "old-at" now2
  · intro k hk
    exact lookup_setMeta_ne (keyTaggedAsOld now o).metadata "old-at" now2 k hk

theorem keyTaggedAsOld_spec_witness :
    List.lookup "old-at"
      (keyTaggedAsOld "t1" ⟨"body", some "text/html", none, [("author", "a")], []⟩).metadata =
      some "t1" ∧
    List.lookup "author"
      (keyTaggedAsOld "t1" ⟨"body", some "text/html", none, [("author", "a")], []⟩).metadata =
      List.lookup "author"
        (⟨"body", some "text/html", none, [("author", "a")], []⟩ : S3ObjectState).metadata :=
  ⟨(keyTaggedAsOld_spec "t1" "t2" ⟨"body", some "text/html", none, [("author", "a")], []⟩).2.2.2.2.1,
    (keyTaggedAsOld_spec "t1" "t2" ⟨"body", some "text/html", none, [("author", "a")], []⟩).2.2.2.2.2.1
      "author" (by decide)⟩

/-! ## Totality of listing consumption (C10) -/

/-- C10: every listing-consumption path is total over absent optional fields:
a page with no `Contents` (or an entry with no key) contributes zero
mark-operations and the marker update still proceeds; a page with no
`CommonPrefixes` contributes zero versions; a common prefix with no prefix
string is trimmed to the empty name, which parsing excludes. -/
theorem listing_total_over_absent (page : ListObjectsOutput) (e : S3Entry)
    (cs : List S3Entry) (c : CommonPrefixEntry) (cps : List CommonPrefixEntry)
    (folder : String) (co : Option (List S3Entry)) (its : Option Bool)
    (nm : Option String) :
    (page.contents = none → tagger page = [] ∧ nextMarkerOf page = page.nextMarker) ∧
    (e.entryKey = none → taggerKeys (e :: cs) = taggerKeys cs) ∧
    (page.commonPrefixes = none → pageVersions folder page = []) ∧
    (c.prefixStr = none → trimPrefixName folder c = "" ∧
      extractVersion (JSValue.str (trimPrefixName folder c)) = none) ∧
    (c.prefixStr = none →
      pageVersions folder ⟨co, some (c :: cps), its, nm⟩ =
        pageVersions folder ⟨co, some cps, its, nm⟩) := by
  have h0 : extractVersion (JSValue.str "") = none := by decide
  refine ⟨?_, ?_, ?_, ?_, ?_⟩
  · intro h
    cases hnm : page.nextMarker <;> simp [tagger, nextMarkerOf, h, hnm]
  · intro h
    simp [taggerKeys, h]
  · intro h
    simp [pageVersions, h]
  · intro h
    refine ⟨by simp [trimPrefixName, h], ?_⟩
    simp [trimPrefixName, h, h0]
  · intro h
    simp [pageVersions, trimPrefixName, h, h0]

theorem listing_total_over_absent_witness :
    tagger ⟨none, none, none, none⟩ = [] ∧
    nextMarkerOf ⟨none, none, none, none⟩ =
      (⟨none, none, none, none⟩ : ListObjectsOutput).nextMarker :=
  (listing_total_over_absent ⟨none, none, none, none⟩ ⟨none⟩ [] ⟨none⟩ [] "docs"
    none none none).1 rfl

/-! ## The version loop of `tagOldVersions` (C4) -/

theorem tagLoop_mem (folder : String) (p : String) :
    ∀ (marked : List String) (vs : List Version),
      p ∈ tagLoop folder marked vs ↔
        p ∉ marked ∧ ∃ v, v ∈ vs ∧ p = prefixOfVersion folder v := by
  intro marked vs
  induction vs generalizing marked with
  | nil => simp [tagLoop]
  | cons v rest ih =>
    simp only [tagLoop]
    split_ifs with hq
    · rw [ih]
      constructor
      · rintro ⟨hpm, w, hw, rfl⟩
        exact ⟨hpm, w, List.mem_cons_of_mem _ hw, rfl⟩
      · rintro ⟨hpm, w, hw, rfl⟩
        rcases List.mem_cons.mp hw with hvw | hw'
        · subst hvw
          exact absurd hq hpm
        · exact ⟨hpm, w, hw', rfl⟩
    · constructor
      · intro hp
        rcases List.mem_cons.mp hp with hpv | hp'
        · exact ⟨hpv ▸ hq, v, List.mem_cons_self .., hpv⟩
        · obtain ⟨hpm, w, hw, rfl⟩ := (ih _).mp hp'
          have hnm : prefixOfVersion folder w ∉ marked :=
            fun hm => hpm (List.mem_cons_of_mem _ hm)
          exact ⟨hnm, w, List.mem_cons_of_mem _ hw, rfl⟩
      · rintro ⟨hpm, w, hw, rfl⟩
        rcases List.mem_cons.mp hw with hvw | hw'
        · subst hvw
          exact List.mem_cons_self ..
        · by_cases hpq : prefixOfVersion folder w = prefixOfVersion folder v
          · rw [hpq]
            exact List.mem_cons_self ..
          · refine List.mem_cons_of_mem _ ((ih _).mpr ⟨?_, w, hw', rfl⟩)
            intro hm
            rcases List.mem_cons.mp hm with h' | h'
            · exact hpq h'
            · exact hpm h'

theorem tagLoop_nodup (folder : String) :
    ∀ (marked : List String) (vs : List Version), (tagLoop folder marked vs).Nodup := by
  intro marked vs
  induction vs generalizing marked with
  | nil => simp [tagLoop]
  | cons v rest ih =>
    simp only [tagLoop]
    split_ifs with hq
    · exact ih _
    · refine List.nodup_cons.mpr ⟨?_, ih _⟩
      intro hmem
      exact ((tagLoop_mem folder _ _ _).mp hmem).1 (List.mem_cons_self ..)

theorem prefixOfVersion_inj (folder : String) (v w : Version)
    (h : prefixOfVersion folder v = prefixOfVersion folder w) : v.version = w.version := by
  have hd := congrArg String.data h
  simp only [prefixOfVersion, String.data_append] at hd
  have h1 := List.append_cancel_right hd
  have h2 := List.append_cancel_left h1
  exact String.ext h2

/-- C4: the version loop of `tagOldVersions` marks exactly the listed versions
strictly below the current version whose object-set prefix is not already
marked; versions comparing equal to or above current are never touched, and an
already-marked prefix is skipped with no marking issued, each marked prefix
appearing exactly once. -/
theorem tagOldVersions_marks_exactly (folder : String) (ptr : JSValue)
    (versions : List Version) (marked : List String) (current : Version)
    (hcur : extractVersion ptr = some current)
    (hcoh : ∀ v ∈ versions, extractVersion (JSValue.str v.version) = some v) :
    ∃ out, tagOldVersions folder ptr versions marked = Except.ok out ∧
      out.Nodup ∧
      (∀ p, p ∈ out ↔ p ∉ marked ∧
        ∃ v, v ∈ versions ∧ compareVersions v current < 0 ∧ p = prefixOfVersion folder v) ∧
      (∀ v ∈ versions, 0 ≤ compareVersions v current → prefixOfVersion folder v ∉ out) := by
  refine ⟨tagLoop folder marked (versions.filter fun v => compareVersions v current < 0),
    by simp [tagOldVersions, hcur], tagLoop_nodup folder _ _, ?_, ?_⟩
  · intro p
    rw [tagLoop_mem]
    constructor
    · rintro ⟨hpm, w, hw, rfl⟩
      obtain ⟨hw', hlt⟩ := List.mem_filter.mp hw
      exact ⟨hpm, w, hw', of_decide_eq_true hlt, rfl⟩
    · rintro ⟨hpm, w, hw, hlt, rfl⟩
      exact ⟨hpm, w, List.mem_filter.mpr ⟨hw, decide_eq_true hlt⟩, rfl⟩
  · intro v hv hge hmem
    obtain ⟨hpm, w, hw, heq⟩ := (tagLoop_mem folder _ _ _).mp hmem
    obtain ⟨hw', hlt⟩ := List.mem_filter.mp hw
    have hvw : v.version = w.version := prefixOfVersion_inj folder v w heq
    have hv1 := hcoh v hv
    have hv2 := hcoh w hw'
    rw [hvw] at hv1
    rw [hv1] at hv2
    injection hv2 with h'
    rw [← h'] at hlt
    have hlt' := of_decide_eq_true hlt
    omega

theorem tagOldVersions_marks_exactly_witness :
    extractVersion (JSValue.str "run-13-2") = some ⟨"run-13-2", 13, 2⟩ ∧
    ∃ out, tagOldVersions "docs" (JSValue.str "run-13-2")
        [⟨"run-12-3", 12, 3⟩, ⟨"run-13-1", 13, 1⟩, ⟨"run-13-2", 13, 2⟩, ⟨"run-14-1", 14, 1⟩]
        [] = Except.ok out ∧
      out.Nodup ∧
      (∀ p, p ∈ out ↔ p ∉ ([] : List String) ∧
        ∃ v, v ∈ [(⟨"run-12-3", 12, 3⟩ : Version), ⟨"run-13-1", 13, 1⟩, ⟨"run-13-2", 13, 2⟩,
            ⟨"run-14-1", 14, 1⟩] ∧
          compareVersions v ⟨"run-13-2", 13, 2⟩ < 0 ∧ p = prefixOfVersion "docs" v) ∧
      (∀ v ∈ [(⟨"run-12-3", 12, 3⟩ : Version), ⟨"run-13-1", 13, 1⟩, ⟨"run-13-2", 13, 2⟩,
          ⟨"run-14-1", 14, 1⟩],
        0 ≤ compareVersions v ⟨"run-13-2", 13, 2⟩ → prefixOfVersion "docs" v ∉ out) :=
  ⟨by decide,
    tagOldVersions_marks_exactly "docs" (JSValue.str "run-13-2")
      [⟨"run-12-3", 12, 3⟩, ⟨"run-13-1", 13, 1⟩, ⟨"run-13-2", 13, 2⟩, ⟨"run-14-1", 14, 1⟩]
      [] ⟨"run-13-2", 13, 2⟩ (by decide) (by decide)⟩

/-! ## Scheduler lemmas: priming -/

theorem primeSlots_length {T : Type} (m : Nat) :
    ∀ src : List (Outcome T), (primeSlots m src).length = m := by
  induction m with
  | zero => intro src; rfl
  | succ m ih => intro src; simp [primeSlots, ih]

theorem countPending_primeSlots {T : Type} (m : Nat) :
    ∀ src : List (Outcome T), countPending (primeSlots m src) = min m src.length := by
  induction m with
  | zero => intro src; simp [primeSlots, countPending]
  | succ m ih =>
    intro src
    cases src with
    | nil =>
      have h := ih ([] : List (Outcome T))
      simp only [primeSlots, pullSlot, List.tail_nil, countPending, List.filter_cons] at h ⊢
      simp only [isPendingSlot] at h ⊢
      simp at h ⊢
      exact h
    | cons o rest =>
      have h := ih rest
      simp only [primeSlots, pullSlot, List.tail_cons, countPending, List.filter_cons] at h ⊢
      simp only [isPendingSlot] at h ⊢
      simp at h ⊢
      omega

theorem slotOkValues_primeSlots {T : Type} (m : Nat) :
    ∀ src : List (Outcome T), slotOkValues (primeSlots m src) = okValues (src.take m) := by
  induction m with
  | zero => intro src; simp [primeSlots, slotOkValues, okValues]
  | succ m ih =>
    intro src
    cases src with
    | nil =>
      have h := ih ([] : List (Outcome T))
      simp only [primeSlots, pullSlot, List.tail_nil, List.take_nil] at h ⊢
      simp [slotOkValues, okValues, List.filterMap_cons] at h ⊢
      exact h
    | cons o rest =>
      have h := ih rest
      cases o with
      | ok v =>
        simp only [primeSlots, pullSlot, List.tail_cons, List.take_succ_cons]
        simp [slotOkValues, okValues, List.filterMap_cons] at h ⊢
        exact h
      | err =>
        simp only [primeSlots, pullSlot, List.tail_cons, List.take_succ_cons]
        simp [slotOkValues, okValues, List.filterMap_cons] at h ⊢
        exact h

theorem primeSlots_all_pending {T : Type} (m : Nat) :
    ∀ src : List (Outcome T), src.drop m ≠ [] →
      ∀ sl ∈ primeSlots m src, isPendingSlot sl = true := by
  induction m with
  | zero => intro src _ sl hsl; simp [primeSlots] at hsl
  | succ m ih =>
    intro src hdrop sl hsl
    cases src with
    | nil => simp at hdrop
    | cons o rest =>
      simp only [primeSlots, pullSlot, List.tail_cons] at hsl
      rcases List.mem_cons.mp hsl with rfl | hsl'
      · rfl
      · exact ih rest (by simpa using hdrop) sl hsl'

theorem primeSlots_no_retired {T : Type} (m : Nat) :
    ∀ src : List (Outcome T), Slot.retired ∉ primeSlots m src := by
  induction m with
  | zero => intro src h; simp [primeSlots] at h
  | succ m ih =>
    intro src h
    cases src with
    | nil =>
      simp only [primeSlots, pullSlot, List.tail_nil] at h
      rcases List.mem_cons.mp h with h' | h'
      · exact Slot.noConfusion h'
      · exact ih _ h'
    | cons o rest =>
      simp only [primeSlots, pullSlot, List.tail_cons] at h
      rcases List.mem_cons.mp h with h' | h'
      · exact Slot.noConfusion h'
      · exact ih _ h'

theorem primeSlots_no_err {T : Type} (m : Nat) :
    ∀ src : List (Outcome T), Outcome.err ∉ src →
      Slot.pending Outcome.err ∉ primeSlots m src := by
  induction m with
  | zero => intro src _ h; simp [primeSlots] at h
  | succ m ih =>
    intro src hsrc h
    cases src with
    | nil =>
      simp only [primeSlots, pullSlot, List.tail_nil] at h
      rcases List.mem_cons.mp h with h' | h'
      · exact Slot.noConfusion h'
      · exact ih _ (by simp) h'
    | cons o rest =>
      simp only [primeSlots, pullSlot, List.tail_cons] at h
      rcases List.mem_cons.mp h with h' | h'
      · have : o = Outcome.err := by
          injection h' with h2
          exact h2.symm
        exact hsrc (this ▸ List.mem_cons_self ..)
      · exact ih rest (fun hm => hsrc (List.mem_cons_of_mem _ hm)) h'

theorem okValues_length {T : Type} :
    ∀ l : List (Outcome T), Outcome.err ∉ l → (okValues l).length = l.length := by
  intro l
  induction l with
  | nil => intro _; rfl
  | cons o rest ih =>
    intro h
    cases o with
    | ok v =>
      simp only [okValues, List.filterMap_cons, List.length_cons]
      simp only [okValues] at ih
      simp [ih fun hm => h (List.mem_cons_of_mem _ hm)]
    | err => exact absurd (List.mem_cons_self ..) h

/-! ## Scheduler lemmas: the invariant -/

theorem genInv_init {T : Type} (max : Nat) (src : List (Outcome T)) :
    GenInv max src (initState max src) := by
  refine ⟨primeSlots_length max src, ?_, ?_, ?_, ?_, ?_⟩
  · show src.length = (src.drop max).length + ([] : List T).length +
      countPending (primeSlots max src)
    rw [countPending_primeSlots, List.length_drop]
    simp only [List.length_nil]
    omega
  · show (↑([] : List T) + ↑(slotOkValues (primeSlots max src)) +
      ↑(okValues (src.drop max)) : Multiset T) = ↑(okValues src)
    rw [slotOkValues_primeSlots]
    have hsplit : okValues (src.take max) ++ okValues (src.drop max) = okValues src := by
      unfold okValues
      rw [← List.filterMap_append, List.take_append_drop]
    rw [← hsplit]
    simp [Multiset.coe_add]
  · by_cases h : src.drop max = []
    · exact Or.inl h
    · exact Or.inr (primeSlots_all_pending max src h)
  · intro h
    exact Phase.noConfusion h
  · intro _
    exact primeSlots_no_retired max src

theorem genInv_step {T : Type} {max : Nat} {src0 : List (Outcome T)} {s t : GenState T}
    (hinv : GenInv max src0 s) (hst : Step s t) : GenInv max src0 t := by
  obtain ⟨hlen, hcount, hacct, htail, hphase, hnoret⟩ := hinv
  cases hst with
  | mainOk pre post src out v =>
    refine ⟨?_, ?_, ?_, ?_, ?_, ?_⟩
    · show (pre ++ pullSlot src :: post).length = max
      simp only [List.length_append, List.length_cons] at hlen ⊢
      exact hlen
    · show src0.length = src.tail.length + (out ++ [v]).length +
        countPending (pre ++ pullSlot src :: post)
      cases src with
      | nil =>
        simp only [countPending, List.filter_append, List.filter_cons, isPendingSlot,
          List.length_append, List.length_cons, List.length_nil, List.tail_nil,
          pullSlot] at hcount ⊢
        simp at hcount ⊢
        omega
      | cons o rest =>
        simp only [countPending, List.filter_append, List.filter_cons, isPendingSlot,
          List.length_append, List.length_cons, List.tail_cons, pullSlot] at hcount ⊢
        simp at hcount ⊢
        omega
    · show (↑(out ++ [v]) + ↑(slotOkValues (pre ++ pullSlot src :: post)) +
        ↑(okValues src.tail) : Multiset T) = ↑(okValues src0)
      cases src with
      | nil =>
        simp only [pullSlot, List.tail_nil] at *
        simp only [slotOkValues, okValues, List.filterMap_append, List.filterMap_cons,
          List.filterMap_nil] at hacct ⊢
        simp only [← Multiset.coe_add, ← Multiset.cons_coe, ← Multiset.singleton_add,
          Multiset.coe_nil] at hacct ⊢
        rw [← hacct]
        abel
      | cons o rest =>
        cases o with
        | ok w =>
          simp only [pullSlot, List.tail_cons] at *
          simp only [slotOkValues, okValues, List.filterMap_append, List.filterMap_cons,
            List.filterMap_nil] at hacct ⊢
          simp only [← Multiset.coe_add, ← Multiset.cons_coe, ← Multiset.singleton_add,
            Multiset.coe_nil] at hacct ⊢
          rw [← hacct]
          abel
        | err =>
          simp only [pullSlot, List.tail_cons] at *
          simp only [slotOkValues, okValues, List.filterMap_append, List.filterMap_cons,
            List.filterMap_nil] at hacct ⊢
          simp only [← Multiset.coe_add, ← Multiset.cons_coe, ← Multiset.singleton_add,
            Multiset.coe_nil] at hacct ⊢
          rw [← hacct]
          abel
    · show src.tail = [] ∨ ∀ sl ∈ pre ++ pullSlot src :: post, isPendingSlot sl = true
      cases src with
      | nil => exact Or.inl rfl
      | cons o rest =>
        rcases htail with h | h
        · exact List.noConfusion h
        · right
          intro sl hsl
          rcases List.mem_append.mp hsl with h' | h'
          · exact h sl (List.mem_append_left _ h')
          · rcases List.mem_cons.mp h' with rfl | h''
            · rfl
            · exact h sl (List.mem_append_right _ (List.mem_cons_of_mem _ h''))
    · intro h
      exact Phase.noConfusion h
    · intro _
      show Slot.retired ∉ pre ++ pullSlot src :: post
      intro hmem
      have hold : Slot.retired ∉ pre ++ Slot.pending (Outcome.ok v) :: post := hnoret rfl
      rcases List.mem_append.mp hmem with h' | h'
      · exact hold (List.mem_append_left _ h')
      · rcases List.mem_cons.mp h' with h'' | h''
        · cases src with
          | nil => exact Slot.noConfusion h''
          | cons o rest => exact Slot.noConfusion h''
        · exact hold (List.mem_append_right _ (List.mem_cons_of_mem _ h''))
  | mainDone pre post src out =>
    have hsrc : src = [] := by
      rcases htail with h | h
      · exact h
      · have := h Slot.doneWrap (List.mem_append_right _ (List.mem_cons_self ..))
        exact absurd this (by simp [isPendingSlot])
    refine ⟨?_, ?_, ?_, Or.inl hsrc, fun _ => hsrc, ?_⟩
    · show (pre ++ Slot.retired :: post).length = max
      simp only [List.length_append, List.length_cons] at hlen ⊢
      exact hlen
    · show src0.length = src.length + out.length + countPending (pre ++ Slot.retired :: post)
      simp only [countPending, List.filter_append, List.filter_cons, isPendingSlot,
        List.length_append] at hcount ⊢
      simp at hcount ⊢
      omega
    · show (↑out + ↑(slotOkValues (pre ++ Slot.retired :: post)) +
        ↑(okValues src) : Multiset T) = ↑(okValues src0)
      simp only [slotOkValues, List.filterMap_append, List.filterMap_cons] at hacct ⊢
      exact hacct
    · intro h
      exact Phase.noConfusion h
  | drainOk pre post src out v =>
    have hsrc : src = [] := hphase rfl
    refine ⟨?_, ?_, ?_, Or.inl hsrc, fun _ => hsrc, ?_⟩
    · show (pre ++ Slot.retired :: post).length = max
      simp only [List.length_append, List.length_cons] at hlen ⊢
      exact hlen
    · show src0.length = src.length + (out ++ [v]).length +
        countPending (pre ++ Slot.retired :: post)
      simp only [countPending, List.filter_append, List.filter_cons, isPendingSlot,
        List.length_append, List.length_cons] at hcount ⊢
      simp at hcount ⊢
      omega
    · show (↑(out ++ [v]) + ↑(slotOkValues (pre ++ Slot.retired :: post)) +
        ↑(okValues src) : Multiset T) = ↑(okValues src0)
      simp only [slotOkValues, List.filterMap_append, List.filterMap_cons] at hacct ⊢
      simp only [← Multiset.coe_add, ← Multiset.cons_coe, ← Multiset.singleton_add,
        Multiset.coe_nil] at hacct ⊢
      rw [← hacct]
      abel
    · intro h
      exact Phase.noConfusion h
  | drainDone pre post src out =>
    have hsrc : src = [] := hphase rfl
    refine ⟨?_, ?_, ?_, Or.inl hsrc, fun _ => hsrc, ?_⟩
    · show (pre ++ Slot.retired :: post).length = max
      simp only [List.length_append, List.length_cons] at hlen ⊢
      exact hlen
    · show src0.length = src.length + out.length + countPending (pre ++ Slot.retired :: post)
      simp only [countPending, List.filter_append, List.filter_cons, isPendingSlot,
        List.length_append] at hcount ⊢
      simp at hcount ⊢
      omega
    · show (↑out + ↑(slotOkValues (pre ++ Slot.retired :: post)) +
        ↑(okValues src) : Multiset T) = ↑(okValues src0)
      simp only [slotOkValues, List.filterMap_append, List.filterMap_cons] at hacct ⊢
      exact hacct
    · intro h
      exact Phase.noConfusion h

theorem genInv_reachable {T : Type} {max : Nat} {src : List (Outcome T)} {s : GenState T}
    (hs : Relation.ReflTransGen Step (initState max src) s) : GenInv max src s := by
  induction hs with
  | refl => exact genInv_init max src
  | tail h1 h2 ih => exact genInv_step ih h2

theorem noErr_step {T : Type} {s t : GenState T} (h : NoErr s) (hst : Step s t) :
    NoErr t := by
  obtain ⟨hsrc, hslots⟩ := h
  cases hst with
  | mainOk pre post src out v =>
    constructor
    · intro hm
      cases src with
      | nil => simp at hm
      | cons o rest => exact hsrc (List.mem_cons_of_mem _ (by simpa using hm))
    · intro hm
      rcases List.mem_append.mp hm with h' | h'
      · exact hslots (List.mem_append_left _ h')
      · rcases List.mem_cons.mp h' with h'' | h''
        · cases src with
          | nil => exact Slot.noConfusion h''
          | cons o rest =>
            have : o = Outcome.err := by
              injection h'' with h3
              exact h3.symm
            exact hsrc (this ▸ List.mem_cons_self ..)
        · exact hslots (List.mem_append_right _ (List.mem_cons_of_mem _ h''))
  | mainDone pre post src out =>
    refine ⟨hsrc, ?_⟩
    intro hm
    rcases List.mem_append.mp hm with h' | h'
    · exact hslots (List.mem_append_left _ h')
    · rcases List.mem_cons.mp h' with h'' | h''
      · exact Slot.noConfusion h''
      · exact hslots (List.mem_append_right _ (List.mem_cons_of_mem _ h''))
  | drainOk pre post src out v =>
    refine ⟨hsrc, ?_⟩
    intro hm
    rcases List.mem_append.mp hm with h' | h'
    · exact hslots (List.mem_append_left _ h')
    · rcases List.mem_cons.mp h' with h'' | h''
      · exact Slot.noConfusion h''
      · exact hslots (List.mem_append_right _ (List.mem_cons_of_mem _ h''))
  | drainDone pre post src out =>
    refine ⟨hsrc, ?_⟩
    intro hm
    rcases List.mem_append.mp hm with h' | h'
    · exact hslots (List.mem_append_left _ h')
    · rcases List.mem_cons.mp h' with h'' | h''
      · exact Slot.noConfusion h''
      · exact hslots (List.mem_append_right _ (List.mem_cons_of_mem _ h''))

theorem noErr_reachable {T : Type} {max : Nat} {src : List (Outcome T)} {s : GenState T}
    (hok : Outcome.err ∉ src)
    (hs : Relation.ReflTransGen Step (initState max src) s) : NoErr s := by
  induction hs with
  | refl =>
    refine ⟨fun hm => hok (List.drop_subset _ _ hm), primeSlots_no_err max src hok⟩
  | tail h1 h2 ih => exact noErr_step ih h2

theorem measureG_step {T : Type} {s t : GenState T} (hst : Step s t) :
    measureG t < measureG s := by
  cases hst with
  | mainOk pre post src out v =>
    cases src with
    | nil =>
      simp only [measureG, slotWeight, pullSlot, List.map_append, List.sum_append,
        List.map_cons, List.sum_cons, List.tail_nil, List.length_nil]
      omega
    | cons o rest =>
      simp only [measureG, slotWeight, pullSlot, List.map_append, List.sum_append,
        List.map_cons, List.sum_cons, List.tail_cons, List.length_cons]
      omega
  | mainDone pre post src out =>
    simp only [measureG, slotWeight, List.map_append, List.sum_append,
      List.map_cons, List.sum_cons]
    omega
  | drainOk pre post src out v =>
    simp only [measureG, slotWeight, List.map_append, List.sum_append,
      List.map_cons, List.sum_cons]
    omega
  | drainDone pre post src out =>
    simp only [measureG, slotWeight, List.map_append, List.sum_append,
      List.map_cons, List.sum_cons]
    omega

theorem progress {T : Type} {s : GenState T} (hne : NoErr s)
    (hret : allRetired s = false) : ∃ t, Step s t := by
  obtain ⟨slots, src, out, ph⟩ := s
  have hex : ∃ sl ∈ slots, isRetiredSlot sl = false := by
    by_contra hall
    push_neg at hall
    have hall' : ∀ sl ∈ slots, isRetiredSlot sl = true := by
      intro sl hsl
      have h' := hall sl hsl
      revert h'
      cases isRetiredSlot sl <;> simp
    have : allRetired ⟨slots, src, out, ph⟩ = true := List.all_eq_true.mpr hall'
    rw [hret] at this
    exact Bool.noConfusion this
  obtain ⟨sl, hmem, hf⟩ := hex
  obtain ⟨pre, post, rfl⟩ := List.append_of_mem hmem
  cases sl with
  | retired => simp [isRetiredSlot] at hf
  | doneWrap =>
    cases ph with
    | main => exact ⟨_, Step.mainDone pre post src out⟩
    | drain => exact ⟨_, Step.drainDone pre post src out⟩
  | pending o =>
    cases o with
    | ok v =>
      cases ph with
      | main => exact ⟨_, Step.mainOk pre post src out v⟩
      | drain => exact ⟨_, Step.drainOk pre post src out v⟩
    | err =>
      exact absurd (List.mem_append.mpr (Or.inr (List.mem_cons_self ..))) hne.2

theorem completion {T : Type} (max : Nat) (src : List (Outcome T))
    (hok : Outcome.err ∉ src) :
    ∀ (n : Nat) (s : GenState T), measureG s ≤ n →
      Relation.ReflTransGen Step (initState max src) s →
      ∃ t, Relation.ReflTransGen Step (initState max src) t ∧ allRetired t = true := by
  intro n
  induction n with
  | zero =>
    intro s hm hr
    cases hb : allRetired s with
    | true => exact ⟨s, hr, hb⟩
    | false =>
      obtain ⟨t, hst⟩ := progress (noErr_reachable hok hr) hb
      have := measureG_step hst
      omega
  | succ n ih =>
    intro s hm hr
    cases hb : allRetired s with
    | true => exact ⟨s, hr, hb⟩
    | false =>
      obtain ⟨t, hst⟩ := progress (noErr_reachable hok hr) hb
      have hlt := measureG_step hst
      exact ih t (by omega) (hr.tail hst)

theorem terminal_output {T : Type} {max : Nat} {src : List (Outcome T)} {s : GenState T}
    (hmax : 1 ≤ max) (hok : Outcome.err ∉ src)
    (hr : Relation.ReflTransGen Step (initState max src) s)
    (hret : allRetired s = true) :
    s.output.length = src.length ∧
    (s.output : Multiset T) = (okValues src : Multiset T) := by
  obtain ⟨hlen, hcount, hacct, htail, hphase, hnoret⟩ := genInv_reachable hr
  have hall : ∀ sl ∈ s.slots, sl = Slot.retired := by
    intro sl hsl
    have h1 : isRetiredSlot sl = true := List.all_eq_true.mp hret sl hsl
    cases sl with
    | retired => rfl
    | doneWrap => simp [isRetiredSlot] at h1
    | pending o => simp [isRetiredSlot] at h1
  have hne : s.slots ≠ [] := by
    intro h
    rw [h] at hlen
    simp at hlen
    omega
  have hph : s.phase = Phase.drain := by
    cases hp : s.phase
    · exfalso
      obtain ⟨sl, hsl⟩ := List.exists_mem_of_ne_nil s.slots hne
      exact hnoret hp (hall sl hsl ▸ hsl)
    · rfl
  have hsrc : s.src = [] := hphase hph
  have hslotok : slotOkValues s.slots = [] := by
    simp only [slotOkValues, List.filterMap_eq_nil_iff]
    intro sl hsl
    rw [hall sl hsl]
  rw [hsrc, hslotok] at hacct
  simp only [okValues, List.filterMap_nil, Multiset.coe_nil, add_zero] at hacct
  constructor
  · have hlen2 : s.output.length = (okValues src).length := by
      have hc := congrArg Multiset.card hacct
      simpa [Multiset.coe_card] using hc
    rw [hlen2]
    exact okValues_length src hok
  · exact hacct

theorem stuck_of_settleableCount_zero {T : Type} (s : GenState T)
    (h : settleableCount s = 0) (t : GenState T) : ¬ Step s t := by
  intro hst
  cases hst with
  | mainOk pre post src out v =>
    simp [settleableCount, List.filter_append, List.filter_cons] at h
  | mainDone pre post src out =>
    simp [settleableCount, List.filter_append, List.filter_cons] at h
  | drainOk pre post src out v =>
    simp [settleableCount, List.filter_append, List.filter_cons] at h
  | drainDone pre post src out =>
    simp [settleableCount, List.filter_append, List.filter_cons] at h

/-! ## Scheduler claim theorems -/

/-- C1 (code bug): with `max = 1` and a single rejecting operation, the primed
state of `parallelGenerator` has no wrapper that can ever settle — `wrap`
attaches only a fulfillment handler, so the rejection never resolves any
wrapper and `Promise.race` never returns — yet nothing has been yielded and
the generator has not finished: the failure is swallowed and the generator
hangs instead of surfacing a failed output element. -/
theorem parallelGenerator_rejection_swallowed :
    settleableCount (initState 1 [(Outcome.err : Outcome Unit)]) = 0 ∧
    (initState 1 [(Outcome.err : Outcome Unit)]).output = [] ∧
    allRetired (initState 1 [(Outcome.err : Outcome Unit)]) = false ∧
    countPending (initState 1 [(Outcome.err : Outcome Unit)]).slots = 1 := by
  refine ⟨by decide, by decide, by decide, by decide⟩

/-- C2: for `max ≥ 1` and a finite source whose operations all fulfil, every
step strictly decreases the measure, every non-finished reachable state can
step, every finished reachable state has yielded exactly the source's `n`
results (as a multiset: none dropped, none duplicated), and a finished state
is reachable — including when `n < max`. -/
theorem parallelGenerator_completes {T : Type} (max : Nat) (src : List (Outcome T))
    (hmax : 1 ≤ max) (hok : Outcome.err ∉ src) :
    (∀ s t : GenState T, Step s t → measureG t < measureG s) ∧
    (∀ s : GenState T, Reachable max src s → allRetired s = false → ∃ t, Step s t) ∧
    (∀ s : GenState T, Reachable max src s → allRetired s = true →
      s.output.length = src.length ∧
      (s.output : Multiset T) = (okValues src : Multiset T)) ∧
    (∃ t : GenState T, Reachable max src t ∧ allRetired t = true ∧
      t.output.length = src.length ∧
      (t.output : Multiset T) = (okValues src : Multiset T)) := by
  refine ⟨fun s t hst => measureG_step hst, ?_, ?_, ?_⟩
  · intro s hs hret
    exact progress (noErr_reachable hok hs) hret
  · intro s hs hret
    exact terminal_output hmax hok hs hret
  · obtain ⟨t, ht, hret⟩ := completion max src hok (measureG (initState max src))
      (initState max src) le_rfl Relation.ReflTransGen.refl
    obtain ⟨h1, h2⟩ := terminal_output hmax hok ht hret
    exact ⟨t, ht, hret, h1, h2⟩

theorem parallelGenerator_completes_witness :
    (1 ≤ 5) ∧ (Outcome.err ∉ [Outcome.ok 1, Outcome.ok 2]) ∧
    ((∀ s t : GenState Nat, Step s t → measureG t < measureG s) ∧
     (∀ s : GenState Nat, Reachable 5 [Outcome.ok 1, Outcome.ok 2] s →
       allRetired s = false → ∃ t, Step s t) ∧
     (∀ s : GenState Nat, Reachable 5 [Outcome.ok 1, Outcome.ok 2] s →
       allRetired s = true →
       s.output.length = [Outcome.ok 1, Outcome.ok 2].length ∧
       (s.output : Multiset Nat) = (okValues [Outcome.ok 1, Outcome.ok 2] : Multiset Nat)) ∧
     (∃ t : GenState Nat, Reachable 5 [Outcome.ok 1, Outcome.ok 2] t ∧
       allRetired t = true ∧
       t.output.length = [Outcome.ok 1, Outcome.ok 2].length ∧
       (t.output : Multiset Nat) = (okValues [Outcome.ok 1, Outcome.ok 2] : Multiset Nat))) :=
  ⟨by decide, by decide,
    parallelGenerator_completes 5 [Outcome.ok 1, Outcome.ok 2] (by decide) (by decide)⟩

/-- C3: in every reachable state of `parallelGenerator` the slot table holds
at most `max` pulled-but-unsettled operations, and slot accounting is exact:
the number of operations pulled from the source equals the number settled into
the output plus the number still in flight.  This covers the primed state, the
main race loop and the tail-drain loop. -/
theorem parallelGenerator_inflight_bounded {T : Type} (max : Nat)
    (src : List (Outcome T)) (_hmax : 1 ≤ max) (s : GenState T)
    (hs : Reachable max src s) :
    countPending s.slots ≤ max ∧
    src.length = s.src.length + s.output.length + countPending s.slots := by
  obtain ⟨hlen, hcount, _⟩ := genInv_reachable hs
  exact ⟨le_of_le_of_eq (List.length_filter_le _ _) hlen, hcount⟩

theorem parallelGenerator_inflight_bounded_witness :
    countPending (initState 3 [Outcome.ok 1, Outcome.ok 2, Outcome.ok 3, Outcome.ok 4,
      Outcome.ok 5]).slots ≤ 3 ∧
    [Outcome.ok 1, Outcome.ok 2, Outcome.ok 3, Outcome.ok 4, Outcome.ok 5].length =
      (initState 3 [Outcome.ok 1, Outcome.ok 2, Outcome.ok 3, Outcome.ok 4,
        Outcome.ok 5]).src.length +
      (initState 3 [Outcome.ok 1, Outcome.ok 2, Outcome.ok 3, Outcome.ok 4,
        Outcome.ok 5]).output.length +
      countPending (initState 3 [Outcome.ok 1, Outcome.ok 2, Outcome.ok 3, Outcome.ok 4,
        Outcome.ok 5]).slots :=
  parallelGenerator_inflight_bounded 3
    [Outcome.ok 1, Outcome.ok 2, Outcome.ok 3, Outcome.ok 4, Outcome.ok 5] (by decide)
    (initState 3 [Outcome.ok 1, Outcome.ok 2, Outcome.ok 3, Outcome.ok 4, Outcome.ok 5])
    Relation.ReflTransGen.refl

end DocsCleanup
